import Mathlib

/-!
Verification development for the Squid repository.

Shallow embedding of the parts of the source relevant to the checked
properties:

* `src/squid-tokenizer/src/lib.rs` (`tokenize`) and
  `src/squid-tokenizer/src/stopwords.rs` (`remove_words_from_sentence`);
* `src/squid-algorithm/src/hashtable.rs` (`MapAlgorithm`);
* `src/squid/src/main.rs` (`SuperSquid::leaderboard`) and
  `src/squid/src/models/config.rs` (`Service`);
* `src/squid/src/models/database.rs` (`Entity`, `Entity::ttl`);
* `src/squid-db/src/ttl.rs` (`TTL::add_entry`);
* `src/squid-db/src/lib.rs` (`Instance`: `set`, `save`, `flush`, `get`,
  `delete`).

Modelling conventions:

* Rust `String`s are modelled as `List Char` in the tokenizer (where
  per-character processing matters) and as Lean `String` elsewhere.
* The on-disk segment files are modelled at the decoded level: a file is the
  list of entries obtained by decoding its lines; `bincode` encoding of one
  entry followed by a `\n` byte corresponds to appending the entry to that
  list (the codec is injective and newline-free, so lines and entries are in
  bijection).
* Opaque fresh segment names (`uuid::Uuid::new_v4`) are determinized as
  natural numbers drawn from a counter carried in the state.
* The long-lived active-segment handle is opened with read+append.  Reads
  through `io::BufReader::new(&self.file)` advance the shared file offset,
  and `O_APPEND` writes leave the offset at end-of-file.  The model carries
  this offset (at line granularity) in the `cursor` field: counting lines
  yields `length - cursor` and moves the cursor to the end.
-/

/-! ## Tokenizer (`src/squid-tokenizer`) -/

/-- Rust `u8::is_ascii_whitespace`, the splitting class of
`str::split_ascii_whitespace`: space, tab, line feed, form feed, carriage
return. -/
def asciiWhitespace (c : Char) : Bool :=
  [0x20, 0x09, 0x0A, 0x0C, 0x0D].contains c.toNat

/-- Rust `char::is_whitespace` (Unicode `White_Space`), the splitting class
of `str::split_whitespace` and the trimming class of `str::trim_end`. -/
def rustWhitespace (c : Char) : Bool :=
  [0x09, 0x0A, 0x0B, 0x0C, 0x0D, 0x20, 0x85, 0xA0, 0x1680,
   0x2000, 0x2001, 0x2002, 0x2003, 0x2004, 0x2005, 0x2006, 0x2007,
   0x2008, 0x2009, 0x200A, 0x2028, 0x2029, 0x202F, 0x205F, 0x3000].contains c.toNat

/-- The punctuation set dropped by `tokenize` (`src/squid-tokenizer/src/lib.rs`). -/
def punctuationChars : List Char :=
  ['!', ',', '.', ':', ';', '?', '-', '\"', '(', ')']

/-- Rust `char::to_lowercase`, restricted to the ASCII alphabet.  The full
Unicode lowering table agrees with this map on every character exercised by
the development (ASCII letters and characters that are already lowercase). -/
def charLower (c : Char) : Char :=
  if 'A' ≤ c ∧ c ≤ 'Z' then Char.ofNat (c.toNat + 32) else c

/-- Replacement performed by `.replace('\'', " ")`: the apostrophe becomes a
single space (both sides are one character, so this is a character map). -/
def replaceApos (c : Char) : Char :=
  if c = '\'' then ' ' else c

/-- UTF-8 byte length of a token; Rust `str::len`. -/
def byteLen (t : List Char) : Nat :=
  (t.map Char.utf8Size).sum

/-- Splitter state: the token currently being accumulated (to the left) and
the finished tokens to the right.  `splitBy` below packages it the way both
Rust splitters behave: separators are dropped and empty tokens are never
produced. -/
def splitByAux (p : Char → Bool) : List Char → List Char × List (List Char)
  | [] => ([], [])
  | c :: rest =>
    let r := splitByAux p rest
    if p c then ([], if r.1.isEmpty then r.2 else r.1 :: r.2)
    else (c :: r.1, r.2)

/-- Split a character list at every character satisfying `p`, dropping
separators and empty segments — the common behaviour of Rust
`split_ascii_whitespace` and `split_whitespace`. -/
def splitBy (p : Char → Bool) (s : List Char) : List (List Char) :=
  let r := splitByAux p s
  if r.1.isEmpty then r.2 else r.1 :: r.2

/-- Minimal positional hex digit, matching Rust `core::fmt::LowerHex`
digits. -/
def hexDigit (n : Nat) : Char :=
  if n < 10 then Char.ofNat (48 + n) else Char.ofNat (87 + n)

/-- Fuel-indexed accumulator loop for lower-hex printing. -/
def hexCharsAux : Nat → Nat → List Char → List Char
  | 0, n, acc => hexDigit (n % 16) :: acc
  | fuel + 1, n, acc =>
    if n < 16 then hexDigit n :: acc
    else hexCharsAux fuel (n / 16) (hexDigit (n % 16) :: acc)

/-- Lower-hex digits of `n` with no leading zeros (at least one digit), as
printed inside Rust `char::escape_unicode`. -/
def hexChars (n : Nat) : List Char :=
  hexCharsAux n n []

/-- Rust `char::escape_unicode` rendered as a character list, applied by
`tokenize` to every character whose UTF-8 encoding exceeds one byte;
single-byte characters are kept as they are. -/
def escapeChar (c : Char) : List Char :=
  if 1 < c.utf8Size then '\\' :: 'u' :: '{' :: (hexChars c.toNat ++ ['}'])
  else [c]

/-- Concatenation of per-character escapes over a string (the
`result_string.chars().map(...).collect::<String>()` step of `tokenize`). -/
def escAll : List Char → List Char
  | [] => []
  | c :: s => escapeChar c ++ escAll s

/-- Rust `Vec::join(" ")`: tokens joined by single spaces. -/
def joinSp : List (List Char) → List Char
  | [] => []
  | [t] => t
  | t :: ts => t ++ ' ' :: joinSp ts

/-- The `.map(|c| format!("{} ", c)).collect::<String>()` step of
`tokenize`: every token followed by one trailing space. -/
def joinTrailing : List (List Char) → List Char
  | [] => []
  | t :: ts => t ++ ' ' :: joinTrailing ts

/-- Rust `str::trim_end`: drop trailing Unicode whitespace. -/
def trimEnd (s : List Char) : List Char :=
  (s.reverse.dropWhile rustWhitespace).reverse

/-- `remove_words_from_sentence` (`src/squid-tokenizer/src/stopwords.rs`):
split on Unicode whitespace, drop every word whose lowercase form is in the
stop-word list, rejoin with single spaces.  The stop-word list (read once
from the `./stopwords` file, empty when the file is absent) is passed as a
parameter. -/
def remove_words_from_sentence (sw : List (List Char)) (sentence : List Char) : List Char :=
  joinSp ((splitBy rustWhitespace sentence).filter
    (fun w => !(sw.contains (w.map charLower))))

/-- Steps (1)-(3) of `tokenize`: replace apostrophes by spaces, lowercase,
drop the punctuation set. -/
def normChars (text : List Char) : List Char :=
  ((text.map replaceApos).map charLower).filter
    (fun c => !(punctuationChars.contains c))

/-- The token list built inside `tokenize`: split the normalized characters
on ASCII whitespace and keep tokens that differ from `" "` and have UTF-8
byte length above one (`.filter(|c| *c != " " && c.len() > 1)`). -/
def srcTokens (text : List Char) : List (List Char) :=
  (splitBy asciiWhitespace (normChars text)).filter
    (fun t => t != [' '] && decide (1 < byteLen t))

/-- `tokenize` (`src/squid-tokenizer/src/lib.rs`): normalized tokens are
rejoined with trailing spaces, stop-words are removed, every multi-byte
character of the resulting string is replaced by its unicode escape, and
trailing whitespace is trimmed. -/
def tokenize (sw : List (List Char)) (text : List Char) : List Char :=
  trimEnd (escAll (remove_words_from_sentence sw (joinTrailing (srcTokens text))))

/-- Pipeline following the specification's own eight steps in its stated
order: (1) apostrophe to space; (2) lowercase; (3) drop punctuation;
(4) split on ASCII whitespace; (5) drop tokens of byte length at most one;
(6) remove stop-words by lowercase lookup; (7) escape multi-byte characters
inside each token; (8) rejoin the tokens with single spaces. -/
def specTokenize (sw : List (List Char)) (text : List Char) : List Char :=
  joinSp ((((splitBy asciiWhitespace (normChars text)).filter
      (fun t => decide (1 < byteLen t))).filter
      (fun w => !(sw.contains (w.map charLower)))).map escAll)

/-! ## Ranking engine (`src/squid-algorithm/src/hashtable.rs`)

The `HashMap<String, usize>` is modelled as an association list with unique
keys; iteration order of the hash map is arbitrary, and the list order
stands in for it. -/

/-- The `MapAlgorithm` word-count table. -/
structure MapAlgorithm where
  data : List (String × Nat)
deriving DecidableEq, Repr

/-- `MapAlgorithm::set`: increment the count of `key`, inserting it at count
one when absent. -/
def MapAlgorithm.set (m : MapAlgorithm) (key : String) : MapAlgorithm :=
  if m.data.any (fun p => p.1 == key) then
    ⟨m.data.map (fun p => if p.1 == key then (p.1, p.2 + 1) else p)⟩
  else
    ⟨m.data ++ [(key, 1)]⟩

/-- `MapAlgorithm::remove`: decrement the count of `key`, removing the key
at count one; absent keys are a no-op. -/
def MapAlgorithm.remove (m : MapAlgorithm) (key : String) : MapAlgorithm :=
  match m.data.lookup key with
  | some count =>
    if 1 < count then
      ⟨m.data.map (fun p => if p.1 == key then (p.1, p.2 - 1) else p)⟩
    else
      ⟨m.data.filter (fun p => p.1 != key)⟩
  | none => m

/-- The comparator of `MapAlgorithm::rank` (`sort_by(|a, b| b.1.cmp(&a.1))`):
`a` sorts no later than `b` when `a`'s count is at least `b`'s. -/
def countGE (a b : String × Nat) : Prop := b.2 ≤ a.2

instance : DecidableRel countGE :=
  fun a b => inferInstanceAs (Decidable (b.2 ≤ a.2))

instance : IsTotal (String × Nat) countGE :=
  ⟨fun a b => le_total b.2 a.2⟩

instance : IsTrans (String × Nat) countGE :=
  ⟨fun _ _ _ h1 h2 => le_trans h2 h1⟩

/-- `MapAlgorithm::rank`: sort the pairs by descending count with a stable
sort (Rust `sort_by(|a, b| b.1.cmp(&a.1))` is stable, as is
`List.insertionSort` with the matching relation, so their outputs coincide)
and take the first `length` pairs.  The Rust function takes `&self` and
sorts a clone, so the table itself is untouched; the model renders this by
being a pure function of the table. -/
def MapAlgorithm.rank (m : MapAlgorithm) (length : Nat) : List (String × Nat) :=
  (List.insertionSort countGE m.data).take length

/-! ## Service facade (`src/squid/src/main.rs`, `models/config.rs`) -/

/-- `MessageType` from `src/squid/src/models/config.rs`. -/
inductive MessageType where
  | anything : MessageType
  | word : MessageType
  | hashtag : MessageType
deriving DecidableEq, Repr

/-- `Service` from `src/squid/src/models/config.rs` (the `algorithm` field,
an enum with the single variant `Hashmap`, is omitted as contentless). -/
structure Service where
  name : String
  max_words : Option Nat
  message_type : MessageType
  lang : Option String
  exclude : List String
deriving DecidableEq, Repr

/-- `SuperSquid::leaderboard` (`src/squid/src/main.rs`): call
`rank(length)` and convert each occurrence from `usize` to `u32` with
`try_into().unwrap_or_default()` (zero on overflow).  The configuration is
available to the handler (`self.config`) but not read by it. -/
def leaderboardHandler (_cfg : Service) (m : MapAlgorithm) (length : Nat) :
    List (String × Nat) :=
  (m.rank length).map (fun p => (p.1, if p.2 < 4294967296 then p.2 else 0))

/-! ## Entity and its TTL attribute (`src/squid/src/models/database.rs`) -/

/-- `Entity`: one stored sentence record. -/
structure Entity where
  id : String
  original_text : Option String
  post_processing_text : String
  lang : String
  meta : String
deriving DecidableEq, Repr

/-- Decimal value of a digit run, as `str::parse::<u64>` computes it. -/
def digitsToNat (ds : List Char) : Nat :=
  ds.foldl (fun a c => a * 10 + (c.toNat - 48)) 0

/-- First match of the regex `expire_at:(\d+)` in a string: at each
position, try the literal `expire_at:` followed by a maximal nonempty digit
run; otherwise advance one character. -/
def findExpireAt : List Char → Option (List Char)
  | [] => none
  | c :: rest =>
    match ("expire_at:".toList).isPrefixOf? (c :: rest) with
    | some tail =>
      let ds := tail.takeWhile Char.isDigit
      if ds.isEmpty then findExpireAt rest else some ds
    | none => findExpireAt rest

/-- `Entity::ttl` (`impl Attributes for Entity`): capture group 1 of
`expire_at:(\d+)` parsed with `parse().unwrap_or_default()`, which yields 0
when the digits overflow `u64`. -/
def Entity.ttl (e : Entity) : Option Nat :=
  (findExpireAt e.meta.toList).map
    (fun ds => if digitsToNat ds < 18446744073709551616 then digitsToNat ds else 0)

/-! ## TTL scheduler (`src/squid-db/src/ttl.rs`) -/

/-- Seconds per hour bucket. -/
def SECONDS_IN_HOUR : Nat := 3600

/-- A TTL bucket entry (struct `Entry` in `ttl.rs`). -/
structure TEntry where
  id : String
  exact_expiration : Nat
deriving DecidableEq, Repr

/-- What `TTL::add_entry` dispatches for a registration: an immediately
spawned expiry task, a one-shot timer followed by the expiry task, or a
deferred record in the hour-bucket map.  The expiry task publishes the entry
to the subscriber channel (when set) and then calls `Instance::delete`. -/
inductive TTLDecision where
  | expireNow : TTLDecision
  | expireTimer : Nat → TTLDecision
  | bucketed : Nat → TTLDecision
deriving DecidableEq, Repr

/-- Append an entry to the bucket map (`periods.entry(h).and_modify(push).or_insert(vec![e])`). -/
def periodsInsert (periods : List (Nat × List TEntry)) (h : Nat) (e : TEntry) :
    List (Nat × List TEntry) :=
  if periods.any (fun p => p.1 == h) then
    periods.map (fun p => if p.1 == h then (p.1, p.2 ++ [e]) else p)
  else
    periods ++ [(h, [e])]

/-- `TTL::add_entry`: with `now` the wall-clock seconds (named
`actual_hour` in the source), an already-reached timestamp spawns an
immediate expiry task; a timestamp in the current hour bucket gets a
one-shot timer of `timestamp - now` seconds; anything later is appended to
the bucket map.  Deletion of the entry from the store is performed by the
dispatched expiry task in the first two cases. -/
def add_entry (now : Nat) (id : String) (timestamp : Nat)
    (periods : List (Nat × List TEntry)) :
    TTLDecision × List (Nat × List TEntry) :=
  if timestamp ≤ now then
    (TTLDecision.expireNow, periods)
  else if now / SECONDS_IN_HOUR = timestamp / SECONDS_IN_HOUR then
    (TTLDecision.expireTimer (timestamp - now), periods)
  else
    (TTLDecision.bucketed (timestamp / SECONDS_IN_HOUR),
      periodsInsert periods (timestamp / SECONDS_IN_HOUR) ⟨id, timestamp⟩)

/-- Whether the decision dispatches a task whose body deletes the entry
from the store (both the immediate and the timed expiry tasks end in
`instance.write().await.delete(&id)`). -/
def decisionDeletes : TTLDecision → Bool
  | TTLDecision.expireNow => true
  | TTLDecision.expireTimer _ => true
  | TTLDecision.bucketed _ => false

/-! ## Sentence store (`src/squid-db/src/lib.rs`) -/

/-- `MAX_ENTRIES_PER_FILE` from `src/squid-db/src/lib.rs`. -/
def MAX_ENTRIES_PER_FILE : Nat := 10000

/-- The database `Instance`, at the decoded level described in the header.
`files` is the data directory (segment name to decoded lines), `fileName`
the active segment, `cursor` the shared read/append offset of the long-lived
active-segment handle, `index` the primary index, `entrySize` the constant
`std::mem::size_of::<T>()`. -/
structure Instance where
  fileName : Nat
  nextName : Nat
  files : List (Nat × List Entity)
  cursor : Nat
  index : List (String × Nat)
  memtable : List Entity
  memtable_flush_size_in_kb : Nat
  entrySize : Nat
deriving DecidableEq, Repr

/-- `BTreeMap::insert`: replace any previous binding of `k`. -/
def indexInsert (idx : List (String × Nat)) (k : String) (v : Nat) :
    List (String × Nat) :=
  (k, v) :: idx.filter (fun p => p.1 != k)

/-- Overwrite the content of segment `n` in the directory. -/
def setFile (files : List (Nat × List Entity)) (n : Nat) (content : List Entity) :
    List (Nat × List Entity) :=
  files.map (fun p => if p.1 == n then (p.1, content) else p)

/-- Content of segment `n` (empty for a missing file; the operations that
read a segment only do so for names present in the directory). -/
def fileContent (st : Instance) (n : Nat) : List Entity :=
  (st.files.lookup n).getD []

/-- `Instance::save`: count the lines readable from the handle's current
offset (which the count moves to end-of-file), append the encoded entry plus
newline, and if `line_count + 1` reaches `MAX_ENTRIES_PER_FILE` switch the
active segment to a freshly created file. -/
def Instance.save (st : Instance) (e : Entity) : Instance :=
  let af := fileContent st st.fileName
  let lineCount := af.length - st.cursor
  let st1 : Instance :=
    { st with files := setFile st.files st.fileName (af ++ [e]),
              cursor := af.length + 1 }
  if MAX_ENTRIES_PER_FILE ≤ lineCount + 1 then
    { st1 with fileName := st1.nextName,
               nextName := st1.nextName + 1,
               files := st1.files ++ [(st1.nextName, [])],
               cursor := 0 }
  else st1

/-- `Instance::flush`: count the active segment's readable lines; when the
memtable does not fit under the cap, write the first
`MAX_ENTRIES_PER_FILE - line_count` memtable entries to the active segment,
open a fresh segment, and run the source's second loop
`for _ in 1..(line_count + memtable.len() - MAX_ENTRIES_PER_FILE)`, which
pre-increments `file_limit` before each read — so it copies the memtable
entries at indices `file_limit + 1 .. file_limit + overflow - 1` (that is,
`(memtable.drop (fileLimit + 1)).take (overflow - 1)`) into the same
`buffer`, which is never cleared; the whole buffer is then written to the
fresh segment, and the memtable is left as is.  Otherwise every memtable
entry is appended to the active segment and the memtable is cleared.  Every
entry serialized in a loop is also inserted into the index under the
segment name current at that moment. -/
def Instance.flush (st : Instance) : Instance :=
  let af := fileContent st st.fileName
  let lineCount := af.length - st.cursor
  if MAX_ENTRIES_PER_FILE < lineCount + st.memtable.length then
    let fileLimit := MAX_ENTRIES_PER_FILE - lineCount
    let firstChunk := st.memtable.take fileLimit
    let idx1 := firstChunk.foldl (fun ix d => indexInsert ix d.id st.fileName) st.index
    let filesA := setFile st.files st.fileName (af ++ firstChunk)
    let newName := st.nextName
    let overflow := lineCount + st.memtable.length - MAX_ENTRIES_PER_FILE
    let secondChunk := (st.memtable.drop (fileLimit + 1)).take (overflow - 1)
    let idx2 := secondChunk.foldl (fun ix d => indexInsert ix d.id newName) idx1
    { st with fileName := newName,
              nextName := st.nextName + 1,
              files := filesA ++ [(newName, firstChunk ++ secondChunk)],
              cursor := (firstChunk ++ secondChunk).length,
              index := idx2 }
  else
    let idx1 := st.memtable.foldl (fun ix d => indexInsert ix d.id st.fileName) st.index
    { st with files := setFile st.files st.fileName (af ++ st.memtable),
              cursor := af.length + st.memtable.length,
              index := idx1,
              memtable := [] }

/-- `Instance::set`: with the memtable disabled (threshold 0), index the id
under the active segment and append via `save`; otherwise push onto the
memtable and flush once `memtable.len() * size_of::<T>() / 1000` exceeds the
threshold.  The TTL side call (`ttl.add_entry` when `data.ttl()` is `Some`)
only touches the scheduler, modelled separately by `add_entry`. -/
def Instance.set (st : Instance) (e : Entity) : Instance :=
  if st.memtable_flush_size_in_kb = 0 then
    Instance.save { st with index := indexInsert st.index e.id st.fileName } e
  else
    let st1 : Instance := { st with memtable := st.memtable ++ [e] }
    if st.memtable_flush_size_in_kb < (st1.memtable.length * st.entrySize) / 1000 then
      st1.flush
    else st1

/-- `Instance::get`: look the id up in the index; when mapped, decode that
segment (`load_file` re-reads it through a fresh handle) and return its
first entry with a matching id; when unmapped, return `None` — the memtable
is not consulted. -/
def Instance.get (st : Instance) (id : String) : Option Entity :=
  match st.index.lookup id with
  | some f => (fileContent st f).find? (fun e => e.id == id)
  | none => none

/-- `Instance::delete`: when the id is in the index, re-read the containing
segment, locate the first line whose decoded id matches, and rewrite the
segment with that line omitted; the id is not removed from the index.  When
the id is not in the index, retain in the memtable only entries with a
different id. -/
def Instance.delete (st : Instance) (id : String) : Instance :=
  match st.index.lookup id with
  | some f =>
    let lines := fileContent st f
    match lines.findIdx? (fun e => e.id == id) with
    | some i => { st with files := setFile st.files f (lines.eraseIdx i) }
    | none => st
  | none => { st with memtable := st.memtable.filter (fun e => e.id != id) }

/-! ## Concrete states used by the claim theorems -/

/-- Filler entry for a pre-populated segment. -/
def eZ : Entity :=
  { id := "z", original_text := none, post_processing_text := "", lang := "", meta := "" }

/-- Concrete entry with id `a`. -/
def eA : Entity :=
  { id := "a", original_text := none, post_processing_text := "", lang := "", meta := "" }

/-- Concrete entry with id `b`. -/
def eB : Entity :=
  { id := "b", original_text := none, post_processing_text := "", lang := "", meta := "" }

/-- Concrete entry with id `c`. -/
def eC : Entity :=
  { id := "c", original_text := none, post_processing_text := "", lang := "", meta := "" }

/-- Instance freshly loaded from a directory holding one segment of 9999
records (the handle is newly opened, so the offset is 0), with three
memtable entries pending: `line_count + memtable.len() = 10002 > 10000`
forces the split path of `flush`. -/
def c1state : Instance :=
  { fileName := 0, nextName := 1, files := [(0, List.replicate 9999 eZ)],
    cursor := 0, index := [], memtable := [eA, eB, eC],
    memtable_flush_size_in_kb := 5, entrySize := 1000 }

/-- Empty store with the memtable disabled (`Instance::new(0)` on an empty
data directory: one fresh empty active segment). -/
def init0 : Instance :=
  { fileName := 0, nextName := 1, files := [(0, [])], cursor := 0, index := [],
    memtable := [], memtable_flush_size_in_kb := 0, entrySize := 1000 }

/-- Distinct records to insert. -/
def mkEnt (i : Nat) : Entity :=
  { id := toString i, original_text := none, post_processing_text := "",
    lang := "fr", meta := "" }

/-- `n` successive `Instance::set` calls on the empty threshold-0 store. -/
def insertN : Nat → Instance
  | 0 => init0
  | n + 1 => (insertN n).set (mkEnt n)

/-- Empty store with a positive memtable threshold (1000 kB) so that a
single insert stays in the memtable. -/
def init1 : Instance :=
  { fileName := 0, nextName := 1, files := [(0, [])], cursor := 0, index := [],
    memtable := [], memtable_flush_size_in_kb := 1000, entrySize := 100 }

/-- Store holding exactly one indexed entry `eA` in segment 0. -/
def st4 : Instance :=
  { fileName := 0, nextName := 1, files := [(0, [eA])], cursor := 0,
    index := [("a", 0)], memtable := [], memtable_flush_size_in_kb := 0,
    entrySize := 1000 }

/-- Configuration with no `max_words` bound. -/
def cfg0 : Service :=
  { name := "s", max_words := none, message_type := MessageType.anything,
    lang := none, exclude := [] }

/-- Configuration with `max_words` set to 1. -/
def cfgMax1 : Service :=
  { name := "s", max_words := some 1, message_type := MessageType.anything,
    lang := none, exclude := [] }

/-- Ranker table with one word containing the URL escape `%20`. -/
def m8 : MapAlgorithm := ⟨[("a%20b", 2)]⟩

/-- Ranker table with two words. -/
def m9 : MapAlgorithm := ⟨[("a", 1), ("b", 2)]⟩

/-! ## Claim C1 — `flush` split path -/

/-- Closed form of `flush` on a store in the shape of `c1state`, with the
9999-record segment content abstracted: `line_count = 9999`, so
`file_limit = 1`; the active segment receives `[eA]`, the fresh segment 1
receives the uncleared buffer `[eA]` plus the pre-incremented second loop's
`[eC]`, and the memtable survives. -/
theorem c1_flush_general (big : List Entity) (h : big.length = 9999) :
    Instance.flush
      { fileName := 0, nextName := 1, files := [(0, big)], cursor := 0,
        index := [], memtable := [eA, eB, eC],
        memtable_flush_size_in_kb := 5, entrySize := 1000 } =
      { fileName := 1, nextName := 2,
        files := [(0, big ++ [eA]), (1, [eA, eC])],
        cursor := 2, index := [("c", 1), ("a", 0)], memtable := [eA, eB, eC],
        memtable_flush_size_in_kb := 5, entrySize := 1000 } := by
  simp [Instance.flush, fileContent, List.lookup, h]
  norm_num [MAX_ENTRIES_PER_FILE]
  simp [setFile, indexInsert, eA, eB, eC]

/-- Claim C1 (code_bug evidence).  On a store whose active segment holds
9999 records and whose memtable holds `[eA, eB, eC]`, `flush` leaves
`[eA, eC]` in the fresh segment — `eA` a second time (the write buffer is
not cleared before the second loop) and `eC` but not `eB` (the second loop
pre-increments the split index, skipping `memtable[file_limit]`) — and the
memtable is not cleared.  The claim's required outcome (fresh segment
exactly `[eB, eC]`, memtable empty, no loss, no duplication) fails. -/
theorem c1_flush_split_bug :
    (Instance.flush c1state).files.lookup 1 = some [eA, eC] ∧
    (Instance.flush c1state).memtable = [eA, eB, eC] ∧
    (((Instance.flush c1state).files.lookup 0).getD []).length = 10000 ∧
    eB ∉ ((Instance.flush c1state).files.lookup 0).getD [] ∧
    eB ∉ ((Instance.flush c1state).files.lookup 1).getD [] ∧
    eA ∈ ((Instance.flush c1state).files.lookup 0).getD [] ∧
    eA ∈ ((Instance.flush c1state).files.lookup 1).getD [] := by
  have heq := c1_flush_general (List.replicate 9999 eZ) (by rw [List.length_replicate])
  have hc1 : Instance.flush c1state = _ := heq
  rw [hc1]
  refine ⟨rfl, rfl, ?_, ?_, ?_, ?_, ?_⟩
  · show (List.replicate 9999 eZ ++ [eA]).length = 10000
    rw [List.length_append, List.length_replicate, List.length_singleton]
  · show eB ∉ List.replicate 9999 eZ ++ [eA]
    intro hmem
    rcases List.mem_append.mp hmem with h1 | h1
    · exact absurd (List.eq_of_mem_replicate h1) (by decide)
    · exact absurd (List.mem_singleton.mp h1) (by decide)
  · show eB ∉ [eA, eC]
    decide
  · show eA ∈ List.replicate 9999 eZ ++ [eA]
    exact List.mem_append.mpr (Or.inr (List.mem_singleton.mpr rfl))
  · show eA ∈ [eA, eC]
    decide

/-! ## Claim C2 — segment cap with threshold 0 -/

/-- Invariant of repeated threshold-0 inserts into the empty store: the
shared read/append offset of the active handle always sits at end-of-file
after a write, so `save` counts 0 lines and never rotates; a single segment
accumulates every record. -/
theorem insertN_spec (n : Nat) :
    ∃ idx, insertN n =
      { fileName := 0, nextName := 1,
        files := [(0, (List.range n).map mkEnt)], cursor := n,
        index := idx, memtable := [],
        memtable_flush_size_in_kb := 0, entrySize := 1000 } := by
  induction n with
  | zero => exact ⟨[], by simp [insertN, init0]⟩
  | succ n ih =>
    obtain ⟨idx, hi⟩ := ih
    refine ⟨indexInsert idx (mkEnt n).id 0, ?_⟩
    show (insertN n).set (mkEnt n) = _
    rw [hi]
    simp [Instance.set, Instance.save, fileContent, setFile, indexInsert,
      MAX_ENTRIES_PER_FILE, List.range_succ]

/-- Claim C2 (code_bug evidence).  Inserting 10001 records with memtable
threshold 0 into an empty store yields a single segment file holding all
10001 records: `save` counts lines from the handle's current offset, which
is already at end-of-file, so the 10000-record rotation never fires.  The
claimed outcome (two files, 10000 and 1 records) fails. -/
theorem c2_segment_cap_violated :
    (insertN 10001).files.map (fun p => p.2.length) = [10001] ∧
    (insertN 10001).files.length = 1 := by
  obtain ⟨idx, h⟩ := insertN_spec 10001
  rw [h]
  constructor <;> simp

/-! ## Claim C3 — `get` and the memtable -/

/-- Claim C3 counterexample.  An entry inserted with a positive memtable
threshold (so it sits in the memtable, unflushed) is not returned by `get`:
the id is absent from the index and `get` answers `None` without checking
the memtable. -/
theorem c3_counterexample :
    (init1.set eA).memtable = [eA] ∧ (init1.set eA).index = [] ∧
    (init1.set eA).get "a" = none := by
  decide

/-- Claim C3 (amended).  When an id is absent from the primary index,
`get` returns `None` no matter what the memtable holds: the memtable is
never consulted. -/
theorem c3_get_no_memtable_fallback (st : Instance) (id : String)
    (mt : List Entity) (h : st.index.lookup id = none) :
    st.get id = none ∧ Instance.get { st with memtable := mt } id = none := by
  have h2 : Instance.get { st with memtable := mt } id = st.get id := rfl
  have h1 : st.get id = none := by
    unfold Instance.get
    rw [h]
  exact ⟨h1, h2.trans h1⟩

/-- Witness for `c3_get_no_memtable_fallback` at a concrete store. -/
theorem c3_get_no_memtable_fallback_witness :
    init1.get "a" = none ∧ Instance.get { init1 with memtable := [eA] } "a" = none :=
  c3_get_no_memtable_fallback init1 "a" [eA] (by decide)

/-! ## Claim C5 — `expire_at:0` entries -/

/-- Claim C5 (code_bug evidence).  An entity whose `meta` is `expire_at:0`
has `ttl() = Some(0)` (the source's own doc comment says 0 means
infinite), and registering timestamp 0 with `TTL::add_entry` always takes
the `actual_hour >= timestamp` branch, dispatching an immediate expiry task
whose body deletes the entry from the store — the entry is not permanent. -/
theorem c5_expire_at_zero_not_permanent :
    Entity.ttl { id := "e", original_text := none, post_processing_text := "w",
                 lang := "fr", meta := "expire_at:0" } = some 0 ∧
    (∀ now id periods, (add_entry now id 0 periods).1 = TTLDecision.expireNow) ∧
    decisionDeletes TTLDecision.expireNow = true := by
  refine ⟨by decide, fun now id periods => ?_, rfl⟩
  unfold add_entry
  rw [if_pos (Nat.zero_le now)]

/-! ## Claim C8 — leaderboard word rewriting -/

/-- Claim C8 counterexample.  A ranked word containing `%20` is returned
verbatim by the leaderboard handler; the claimed rewrite to a space does
not happen. -/
theorem c8_counterexample :
    leaderboardHandler cfg0 m8 1 = [("a%20b", 2)] ∧
    ¬ leaderboardHandler cfg0 m8 1 = [("a b", 2)] := by
  decide

/-- Claim C8 (amended).  The leaderboard handler returns `rank(length)`
with every word unchanged (no `%20` rewriting) and each occurrence
converted from `usize` to `u32` with `unwrap_or_default` (0 on overflow). -/
theorem c8_words_not_rewritten (cfg : Service) (m : MapAlgorithm) (k : Nat) :
    (leaderboardHandler cfg m k).map Prod.fst = (m.rank k).map Prod.fst ∧
    leaderboardHandler cfg m k
      = (m.rank k).map (fun p => (p.1, if p.2 < 4294967296 then p.2 else 0)) := by
  refine ⟨?_, rfl⟩
  unfold leaderboardHandler
  rw [List.map_map]
  have hf : (Prod.fst ∘ fun p : String × Nat =>
      (p.1, if p.2 < 4294967296 then p.2 else 0)) = Prod.fst :=
    funext (fun p => rfl)
  rw [hf]

/-! ## Claim C9 — `max_words` clamping -/

/-- Claim C9 counterexample.  With `max_words = Some 1` configured, a
`Leaderboard` request of length 2 over a two-word table still returns 2
entries: the handler never reads `max_words`. -/
theorem c9_counterexample :
    cfgMax1.max_words = some 1 ∧
    (leaderboardHandler cfgMax1 m9 2).length = 2 := by
  decide

/-- Claim C9 (amended).  The leaderboard handler is independent of the
configuration — in particular of `max_words`, which is parsed but never
applied — and the requested length reaches `rank` unclamped, so the
response has `min length (number of keys)` entries. -/
theorem c9_max_words_never_applied (cfg cfg2 : Service) (m : MapAlgorithm) (k : Nat) :
    leaderboardHandler cfg m k = leaderboardHandler cfg2 m k ∧
    (leaderboardHandler cfg m k).length = min k m.data.length := by
  refine ⟨rfl, ?_⟩
  unfold leaderboardHandler MapAlgorithm.rank
  rw [List.length_map, List.length_take, List.length_insertionSort]

/-! ## Claim C4 — `delete` -/

/-- Claim C4 counterexample.  Deleting the indexed id `a` rewrites segment 0
without the entry, but the primary index still maps `a` to segment 0
afterwards: `delete` never removes the id from the index, contradicting the
claim that the index no longer maps the id. -/
theorem c4_counterexample :
    (st4.delete "a").index.lookup "a" = some 0 ∧
    (st4.delete "a").files.lookup 0 = some [] ∧
    (st4.delete "a").index = st4.index := by
  decide

/-- Reduction of `delete` when the id is mapped by the index. -/
theorem delete_eq_of_lookup_some (st : Instance) (id : String) (f : Nat)
    (hf : st.index.lookup id = some f) :
    st.delete id =
      match (fileContent st f).findIdx? (fun e => e.id == id) with
      | some i => { st with files := setFile st.files f ((fileContent st f).eraseIdx i) }
      | none => st := by
  unfold Instance.delete
  rw [hf]

/-- Reduction of `delete` when the id is not mapped by the index. -/
theorem delete_eq_of_lookup_none (st : Instance) (id : String)
    (hf : st.index.lookup id = none) :
    st.delete id = { st with memtable := st.memtable.filter (fun e => e.id != id) } := by
  unfold Instance.delete
  rw [hf]

/-- Reduction of `get` when the id is mapped by the index. -/
theorem get_eq_of_lookup_some (st : Instance) (id : String) (f : Nat)
    (hf : st.index.lookup id = some f) :
    st.get id = (fileContent st f).find? (fun e => e.id == id) := by
  unfold Instance.get
  rw [hf]

/-- Rewriting a segment present in the directory changes exactly its
content under `lookup`. -/
theorem lookup_setFile_self (files : List (Nat × List Entity)) (f : Nat)
    (c l : List Entity) (h : files.lookup f = some l) :
    (setFile files f c).lookup f = some c := by
  induction files with
  | nil => simp [List.lookup] at h
  | cons p ps ih =>
    obtain ⟨k, v⟩ := p
    rw [List.lookup_cons] at h
    unfold setFile
    rw [List.map_cons]
    by_cases hk : k = f
    · subst hk
      rw [if_pos (beq_self_eq_true k)]
      rw [List.lookup_cons, beq_self_eq_true]
    · have hb1 : (f == k) = false := by
        simp
        exact fun h2 => hk h2.symm
      have hb2 : (k == f) = false := by
        simp
        exact hk
      rw [hb1] at h
      rw [hb2]
      show List.lookup f ((k, v) :: setFile ps f c) = some c
      rw [List.lookup_cons, hb1]
      exact ih h

/-- A successful `findIdx?` starting at `k` returns an index of at least
`k`. -/
theorem findIdx?_ge (p : Entity → Bool) (l : List Entity) :
    ∀ k m, l.findIdx? p k = some m → k ≤ m := by
  induction l with
  | nil => intro k m h; simp [List.findIdx?] at h
  | cons x xs ih =>
    intro k m h
    rw [List.findIdx?_cons] at h
    by_cases hx : p x = true
    · rw [if_pos hx] at h
      injection h with h
      omega
    · rw [if_neg hx] at h
      have := ih (k + 1) m h
      omega

/-- A failed `findIdx?` means no element matches. -/
theorem findIdx?_none_nomatch (p : Entity → Bool) (l : List Entity) :
    ∀ k, l.findIdx? p k = none → ∀ x ∈ l, ¬ p x = true := by
  induction l with
  | nil => intro k _ x hx; cases hx
  | cons y ys ih =>
    intro k h x hx
    rw [List.findIdx?_cons] at h
    by_cases hy : p y = true
    · rw [if_pos hy] at h; cases h
    · rw [if_neg hy] at h
      rcases List.mem_cons.mp hx with rfl | hx2
      · exact fun hc => hy hc
      · exact ih (k + 1) h x hx2

/-- Erasing the first match of a predicate that holds at most once leaves a
list with no match. -/
theorem find?_eraseIdx_none (p : Entity → Bool) (l : List Entity) :
    ∀ k i, l.countP p ≤ 1 → l.findIdx? p k = some (k + i) →
      (l.eraseIdx i).find? p = none := by
  induction l with
  | nil => intro k i _ h; simp [List.findIdx?] at h
  | cons x xs ih =>
    intro k i hc h
    rw [List.findIdx?_cons] at h
    rw [List.countP_cons] at hc
    by_cases hx : p x = true
    · rw [if_pos hx] at h
      injection h with h
      have hi : i = 0 := by omega
      subst hi
      rw [List.eraseIdx_cons_zero, List.find?_eq_none]
      rw [if_pos hx] at hc
      have h0 : xs.countP p = 0 := by omega
      exact List.countP_eq_zero.mp h0
    · rw [if_neg hx] at h
      have hge := findIdx?_ge p xs (k + 1) (k + i) h
      obtain ⟨j, rfl⟩ : ∃ j, i = j + 1 := ⟨i - 1, by omega⟩
      have hx' : p x = false := by simp [hx]
      rw [List.eraseIdx_cons_succ]
      rw [List.find?_cons, hx']
      apply ih (k + 1) j
      · rw [if_neg hx] at hc
        omega
      · have harith : k + (j + 1) = (k + 1) + j := by omega
        rw [harith] at h
        exact h

/-- Claim C4 (amended).  For an id mapped by the primary index, `delete`
rewrites the containing segment with the first matching line omitted but
leaves the index unchanged (the stale mapping remains); `get` nevertheless
returns `None` afterwards whenever the segment held at most one line with
that id.  For an id absent from the index, only the memtable is filtered
and `get` remains `None`; an unknown id is a silent no-op. -/
theorem c4_delete_spec (st : Instance) (id : String) :
    (∀ f, st.index.lookup id = some f →
      (st.delete id).index = st.index ∧
      (∀ i, (fileContent st f).findIdx? (fun e => e.id == id) = some i →
        (st.delete id).files.lookup f = some ((fileContent st f).eraseIdx i)) ∧
      ((fileContent st f).countP (fun e => e.id == id) ≤ 1 →
        (st.delete id).get id = none)) ∧
    (st.index.lookup id = none →
      (st.delete id).memtable = st.memtable.filter (fun e => e.id != id) ∧
      (st.delete id).files = st.files ∧
      (st.delete id).index = st.index ∧
      (st.delete id).get id = none) := by
  constructor
  · intro f hf
    cases hfind : (fileContent st f).findIdx? (fun e => e.id == id) with
    | none =>
      have hd : st.delete id = st := by
        rw [delete_eq_of_lookup_some st id f hf, hfind]
      refine ⟨by rw [hd], ?_, ?_⟩
      · intro i hi
        cases hi
      · intro _
        rw [hd, get_eq_of_lookup_some st id f hf, List.find?_eq_none]
        exact findIdx?_none_nomatch _ _ 0 hfind
    | some i =>
      cases hl : st.files.lookup f with
      | none =>
        exfalso
        have hempty : fileContent st f = [] := by
          unfold fileContent
          rw [hl]
          rfl
        rw [hempty] at hfind
        simp [List.findIdx?] at hfind
      | some l =>
        have hd : st.delete id =
            { st with files := setFile st.files f ((fileContent st f).eraseIdx i) } := by
          rw [delete_eq_of_lookup_some st id f hf, hfind]
        have hlook :
            (setFile st.files f ((fileContent st f).eraseIdx i)).lookup f
              = some ((fileContent st f).eraseIdx i) :=
          lookup_setFile_self st.files f _ l hl
        refine ⟨by rw [hd], ?_, ?_⟩
        · intro i' hi'
          injection hi' with hi2
          subst hi2
          rw [hd]
          exact hlook
        · intro hc
          rw [hd]
          have hf2 :
              ({ st with files := setFile st.files f ((fileContent st f).eraseIdx i) }
                : Instance).index.lookup id = some f := hf
          rw [get_eq_of_lookup_some _ id f hf2]
          have hfc :
              fileContent
                  { st with files := setFile st.files f ((fileContent st f).eraseIdx i) } f
                = (fileContent st f).eraseIdx i := by
            show ((setFile st.files f ((fileContent st f).eraseIdx i)).lookup f).getD []
              = (fileContent st f).eraseIdx i
            rw [hlook, Option.getD_some]
          rw [hfc]
          apply find?_eraseIdx_none _ _ 0 i hc
          rw [Nat.zero_add]
          exact hfind
  · intro hf
    have hd : st.delete id
        = { st with memtable := st.memtable.filter (fun e => e.id != id) } :=
      delete_eq_of_lookup_none st id hf
    have hf2 :
        ({ st with memtable := st.memtable.filter (fun e => e.id != id) }
          : Instance).index.lookup id = none := hf
    refine ⟨by rw [hd], by rw [hd], by rw [hd], ?_⟩
    rw [hd]
    unfold Instance.get
    rw [hf2]

/-- Witness for `c4_delete_spec` at the concrete store `st4`. -/
theorem c4_delete_spec_witness :
    (st4.delete "a").index = st4.index ∧
    (st4.delete "a").files.lookup 0 = some ((fileContent st4 0).eraseIdx 0) ∧
    (st4.delete "a").get "a" = none :=
  ⟨((c4_delete_spec st4 "a").1 0 (by decide)).1,
   (((c4_delete_spec st4 "a").1 0 (by decide)).2.1 0 (by decide)),
   (((c4_delete_spec st4 "a").1 0 (by decide)).2.2 (by decide))⟩

/-! ## Claim C6 — `rank` top-K -/

/-- Claim C6.  `rank k` returns `min k (number of keys)` pairs — all of
them when fewer than `k` keys exist — sorted descending by count, and the
returned pairs together with the dropped ones form exactly the table's
pairs, every dropped pair having a count no larger than every returned one.
The table is not mutated: `rank` is a pure function of the table. -/
theorem c6_rank_topk (m : MapAlgorithm) (k : Nat) :
    (m.rank k).length = min k m.data.length ∧
    (m.rank k).Pairwise countGE ∧
    ∃ rest, (m.rank k ++ rest).Perm m.data ∧
      ∀ p ∈ rest, ∀ q ∈ m.rank k, p.2 ≤ q.2 := by
  refine ⟨?_, ?_, ?_⟩
  · unfold MapAlgorithm.rank
    rw [List.length_take, List.length_insertionSort]
  · exact List.Pairwise.sublist (List.take_sublist k _)
      (List.sorted_insertionSort countGE m.data)
  · refine ⟨(List.insertionSort countGE m.data).drop k, ?_, ?_⟩
    · show (List.take k (List.insertionSort countGE m.data)
          ++ (List.insertionSort countGE m.data).drop k).Perm m.data
      rw [List.take_append_drop]
      exact List.perm_insertionSort countGE m.data
    · intro p hp q hq
      have hs : (List.insertionSort countGE m.data).Pairwise countGE :=
        List.sorted_insertionSort countGE m.data
      rw [← List.take_append_drop k (List.insertionSort countGE m.data)] at hs
      exact (List.pairwise_append.mp hs).2.2 q hq p hp

/-- Witness for `c6_rank_topk` at a concrete two-key table. -/
theorem c6_rank_topk_witness :
    (m9.rank 1).length = min 1 m9.data.length ∧
    (m9.rank 1).Pairwise countGE ∧
    ∃ rest, (m9.rank 1 ++ rest).Perm m9.data ∧
      ∀ p ∈ rest, ∀ q ∈ m9.rank 1, p.2 ≤ q.2 :=
  c6_rank_topk m9 1

/-! ## Claims C7 and C10 — tokenizer pipeline -/

/-- Soundness of the splitter loop: the pending token and every finished
token consist of non-separator characters of the input, and finished tokens
are nonempty. -/
theorem splitByAux_sound (p : Char → Bool) (s : List Char) :
    (∀ c ∈ (splitByAux p s).1, p c = false ∧ c ∈ s) ∧
    (∀ t ∈ (splitByAux p s).2, t ≠ [] ∧ ∀ c ∈ t, p c = false ∧ c ∈ s) := by
  induction s with
  | nil =>
    constructor <;> intro x hx <;> simp [splitByAux] at hx
  | cons c rest ih =>
    obtain ⟨ih1, ih2⟩ := ih
    cases hc : p c with
    | true =>
      have h1 : (splitByAux p (c :: rest)).1 = [] := by
        simp [splitByAux, hc]
      have h2 : (splitByAux p (c :: rest)).2
          = if (splitByAux p rest).1.isEmpty then (splitByAux p rest).2
            else (splitByAux p rest).1 :: (splitByAux p rest).2 := by
        simp [splitByAux, hc]
      constructor
      · intro x hx
        rw [h1] at hx
        cases hx
      · intro t ht
        rw [h2] at ht
        by_cases hemp : (splitByAux p rest).1.isEmpty
        · rw [if_pos hemp] at ht
          obtain ⟨hn, hcs⟩ := ih2 t ht
          exact ⟨hn, fun x hx => ⟨(hcs x hx).1, List.mem_cons_of_mem c (hcs x hx).2⟩⟩
        · rw [if_neg hemp] at ht
          rcases List.mem_cons.mp ht with rfl | ht2
          · refine ⟨fun h0 => hemp (by rw [h0]; rfl), ?_⟩
            intro x hx
            exact ⟨(ih1 x hx).1, List.mem_cons_of_mem c (ih1 x hx).2⟩
          · obtain ⟨hn, hcs⟩ := ih2 t ht2
            exact ⟨hn, fun x hx => ⟨(hcs x hx).1, List.mem_cons_of_mem c (hcs x hx).2⟩⟩
    | false =>
      have h1 : (splitByAux p (c :: rest)).1 = c :: (splitByAux p rest).1 := by
        simp [splitByAux, hc]
      have h2 : (splitByAux p (c :: rest)).2 = (splitByAux p rest).2 := by
        simp [splitByAux, hc]
      constructor
      · intro x hx
        rw [h1] at hx
        rcases List.mem_cons.mp hx with rfl | hx2
        · exact ⟨hc, List.mem_cons_self x rest⟩
        · exact ⟨(ih1 x hx2).1, List.mem_cons_of_mem c (ih1 x hx2).2⟩
      · intro t ht
        rw [h2] at ht
        obtain ⟨hn, hcs⟩ := ih2 t ht
        exact ⟨hn, fun x hx => ⟨(hcs x hx).1, List.mem_cons_of_mem c (hcs x hx).2⟩⟩

/-- Tokens produced by `splitBy` are nonempty and consist of non-separator
characters of the input. -/
theorem splitBy_sound (p : Char → Bool) (s : List Char) :
    ∀ t ∈ splitBy p s, t ≠ [] ∧ ∀ c ∈ t, p c = false ∧ c ∈ s := by
  intro t ht
  simp only [splitBy] at ht
  by_cases hemp : (splitByAux p s).1.isEmpty
  · rw [if_pos hemp] at ht
    exact (splitByAux_sound p s).2 t ht
  · rw [if_neg hemp] at ht
    rcases List.mem_cons.mp ht with rfl | ht2
    · exact ⟨fun h0 => hemp (by rw [h0]; rfl), (splitByAux_sound p s).1⟩
    · exact (splitByAux_sound p s).2 t ht2

/-- Prepending separator-free characters extends the pending token. -/
theorem splitByAux_append_token (p : Char → Bool) (t s : List Char)
    (h : ∀ c ∈ t, p c = false) :
    splitByAux p (t ++ s) = (t ++ (splitByAux p s).1, (splitByAux p s).2) := by
  induction t with
  | nil => simp
  | cons c cs ih =>
    have hc : p c = false := h c (List.mem_cons_self c cs)
    have ih2 := ih (fun x hx => h x (List.mem_cons_of_mem c hx))
    simp [splitByAux, hc, ih2]

/-- A separator at the head finalizes the pending token. -/
theorem splitByAux_cons_sep (p : Char → Bool) (c : Char) (s : List Char)
    (hc : p c = true) :
    splitByAux p (c :: s) = ([], splitBy p s) := by
  simp [splitByAux, splitBy, hc]

/-- Splitting the trailing-space join of nonempty separator-free tokens
recovers exactly the token list: the step inside `tokenize` that hands the
tokens to `remove_words_from_sentence` as one string loses nothing — as
long as no token contains a character the second splitter treats as a
separator. -/
theorem splitBy_joinTrailing (p : Char → Bool) (hp : p ' ' = true)
    (ts : List (List Char)) (h : ∀ t ∈ ts, t ≠ [] ∧ ∀ c ∈ t, p c = false) :
    splitBy p (joinTrailing ts) = ts := by
  induction ts with
  | nil => simp [joinTrailing, splitBy, splitByAux]
  | cons t ts ih =>
    obtain ⟨hne, hchar⟩ := h t (List.mem_cons_self t ts)
    have ih2 := ih (fun x hx => h x (List.mem_cons_of_mem t hx))
    show splitBy p (t ++ ' ' :: joinTrailing ts) = t :: ts
    unfold splitBy
    rw [splitByAux_append_token p t _ hchar, splitByAux_cons_sep p ' ' _ hp]
    have hemp : (t ++ ([] : List Char)).isEmpty = false := by
      rw [List.append_nil]
      cases t with
      | nil => exact absurd rfl hne
      | cons a as => rfl
    simp [hemp, ih2, hne]

/-- Per-character escaping distributes over concatenation. -/
theorem escAll_append (a b : List Char) :
    escAll (a ++ b) = escAll a ++ escAll b := by
  induction a with
  | nil => rfl
  | cons c cs ih => simp [escAll, ih]

/-- The space character is single-byte, so escaping keeps it. -/
theorem escapeChar_space : escapeChar ' ' = [' '] := by decide

/-- Escaping the single-space join equals joining the escaped tokens:
escaping after the join (as the source does) and before the join (as the
specification words it) coincide. -/
theorem escAll_joinSp (ts : List (List Char)) :
    escAll (joinSp ts) = joinSp (ts.map escAll) := by
  induction ts with
  | nil => rfl
  | cons t ts ih =>
    cases ts with
    | nil => rfl
    | cons t2 ts2 =>
      show escAll (t ++ ' ' :: joinSp (t2 :: ts2))
        = escAll t ++ ' ' :: joinSp ((t2 :: ts2).map escAll)
      rw [escAll_append]
      show escAll t ++ (escapeChar ' ' ++ escAll (joinSp (t2 :: ts2))) = _
      rw [escapeChar_space, ih]
      rfl

/-- Hex digits are not whitespace. -/
theorem hexDigit_not_ws : ∀ n < 16, rustWhitespace (hexDigit n) = false := by
  decide

/-- Characters produced by the hex printer over a whitespace-free
accumulator are not whitespace. -/
theorem hexCharsAux_not_ws (fuel : Nat) :
    ∀ n acc, (∀ c ∈ acc, rustWhitespace c = false) →
      ∀ c ∈ hexCharsAux fuel n acc, rustWhitespace c = false := by
  induction fuel with
  | zero =>
    intro n acc hacc c hc
    rcases List.mem_cons.mp hc with rfl | hc2
    · exact hexDigit_not_ws _ (Nat.mod_lt n (by norm_num))
    · exact hacc c hc2
  | succ fuel ih =>
    intro n acc hacc c hc
    simp only [hexCharsAux] at hc
    by_cases hn : n < 16
    · rw [if_pos hn] at hc
      rcases List.mem_cons.mp hc with rfl | hc2
      · exact hexDigit_not_ws _ hn
      · exact hacc c hc2
    · rw [if_neg hn] at hc
      refine ih (n / 16) (hexDigit (n % 16) :: acc) ?_ c hc
      intro x hx
      rcases List.mem_cons.mp hx with rfl | hx2
      · exact hexDigit_not_ws _ (Nat.mod_lt n (by omega))
      · exact hacc x hx2

/-- Escaping a non-whitespace character yields only non-whitespace
characters. -/
theorem escapeChar_not_ws (c : Char) (h : rustWhitespace c = false) :
    ∀ x ∈ escapeChar c, rustWhitespace x = false := by
  intro x hx
  unfold escapeChar at hx
  by_cases hs : 1 < c.utf8Size
  · rw [if_pos hs] at hx
    rcases List.mem_cons.mp hx with rfl | hx
    · decide
    rcases List.mem_cons.mp hx with rfl | hx
    · decide
    rcases List.mem_cons.mp hx with rfl | hx
    · decide
    rcases List.mem_append.mp hx with hx | hx
    · exact hexCharsAux_not_ws _ _ _ (fun y hy => absurd hy (List.not_mem_nil y)) x hx
    · rw [List.mem_singleton.mp hx]
      decide
  · rw [if_neg hs] at hx
    rw [List.mem_singleton.mp hx]
    exact h

/-- An escape is never empty. -/
theorem escapeChar_ne_nil (c : Char) : escapeChar c ≠ [] := by
  unfold escapeChar
  split <;> simp

/-- Escaping a nonempty token yields a nonempty string. -/
theorem escAll_ne_nil (t : List Char) (h : t ≠ []) : escAll t ≠ [] := by
  cases t with
  | nil => exact absurd rfl h
  | cons c cs =>
    show escapeChar c ++ escAll cs ≠ []
    intro h0
    exact escapeChar_ne_nil c (List.append_eq_nil.mp h0).1

/-- Escaping a whitespace-free token yields a whitespace-free string. -/
theorem escAll_not_ws (t : List Char) (h : ∀ c ∈ t, rustWhitespace c = false) :
    ∀ x ∈ escAll t, rustWhitespace x = false := by
  induction t with
  | nil => intro x hx; cases hx
  | cons c cs ih =>
    intro x hx
    simp only [escAll] at hx
    rcases List.mem_append.mp hx with hx | hx
    · exact escapeChar_not_ws c (h c (List.mem_cons_self c cs)) x hx
    · exact ih (fun y hy => h y (List.mem_cons_of_mem c hy)) x hx

/-- `trim_end` is the identity on a string whose last character is not
whitespace. -/
theorem trimEnd_eq_self_of_last (s : List Char)
    (h : ∀ c, s.getLast? = some c → rustWhitespace c = false) :
    trimEnd s = s := by
  unfold trimEnd
  cases hrev : s.reverse with
  | nil =>
    exact (List.reverse_eq_nil_iff.mp hrev).symm
  | cons c r =>
    have hlast : s.getLast? = some c := by
      rw [← List.head?_reverse, hrev]
      rfl
    have hc := h c hlast
    rw [List.dropWhile_cons, hc]
    show (c :: r).reverse = s
    rw [← hrev, List.reverse_reverse]

/-- The single-space join of nonempty tokens is nonempty. -/
theorem joinSp_ne_nil (t : List Char) (ts : List (List Char)) (h : t ≠ []) :
    joinSp (t :: ts) ≠ [] := by
  cases ts with
  | nil => exact h
  | cons t2 ts2 =>
    show t ++ ' ' :: joinSp (t2 :: ts2) ≠ []
    intro h0
    exact absurd (List.append_eq_nil.mp h0).2 (by simp)

/-- The last character of a single-space join of nonempty tokens belongs to
one of the tokens (it is never the separator). -/
theorem joinSp_getLast?_mem (ts : List (List Char)) (h : ∀ t ∈ ts, t ≠ []) :
    ∀ c, (joinSp ts).getLast? = some c → ∃ t ∈ ts, c ∈ t := by
  induction ts with
  | nil =>
    intro c hc
    simp [joinSp] at hc
  | cons t ts ih =>
    cases ts with
    | nil =>
      intro c hc
      refine ⟨t, List.mem_cons_self t [], ?_⟩
      obtain ⟨hne2, heq⟩ := List.mem_getLast?_eq_getLast (Option.mem_def.mpr hc)
      rw [heq]
      exact List.getLast_mem hne2
    | cons t2 ts2 =>
      intro c hc
      have hJ : joinSp (t2 :: ts2) ≠ [] :=
        joinSp_ne_nil t2 ts2 (h t2 (List.mem_cons_of_mem t (List.mem_cons_self t2 ts2)))
      have hstep : (joinSp (t :: t2 :: ts2)).getLast? = (joinSp (t2 :: ts2)).getLast? := by
        show (t ++ ' ' :: joinSp (t2 :: ts2)).getLast? = _
        rw [List.getLast?_append]
        show ((' ' :: joinSp (t2 :: ts2)).getLast?).or t.getLast? = _
        rw [show (' ' :: joinSp (t2 :: ts2)) = [' '] ++ joinSp (t2 :: ts2) from rfl,
          List.getLast?_append]
        cases hg : (joinSp (t2 :: ts2)).getLast? with
        | none =>
          exact absurd (List.getLast?_eq_none_iff.mp hg) hJ
        | some x => rfl
      rw [hstep] at hc
      obtain ⟨t', ht', hct'⟩ :=
        ih (fun x hx => h x (List.mem_cons_of_mem t hx)) c hc
      exact ⟨t', List.mem_cons_of_mem t ht', hct'⟩

/-- `trim_end` is the identity on the single-space join of nonempty
whitespace-free tokens. -/
theorem trimEnd_joinSp (ts : List (List Char))
    (h : ∀ t ∈ ts, t ≠ [] ∧ ∀ c ∈ t, rustWhitespace c = false) :
    trimEnd (joinSp ts) = joinSp ts := by
  apply trimEnd_eq_self_of_last
  intro c hc
  obtain ⟨t, ht, hct⟩ := joinSp_getLast?_mem ts (fun t ht => (h t ht).1) c hc
  exact (h t ht).2 c hct

/-- The two conjuncts of the token filter of `tokenize` collapse to the
byte-length test: a token equal to `" "` has byte length 1, so the first
conjunct is implied by the second. -/
theorem srcTokens_eq_filter (text : List Char) :
    srcTokens text = (splitBy asciiWhitespace (normChars text)).filter
      (fun t => decide (1 < byteLen t)) := by
  unfold srcTokens
  apply List.filter_congr
  intro t _
  by_cases hlen : 1 < byteLen t
  · have h1 : t ≠ [' '] := by
      intro h0
      rw [h0] at hlen
      exact absurd hlen (by decide)
    simp [hlen, h1]
  · simp [hlen]

/-- Refinement of the specification pipeline by the source `tokenize`, under
the proviso that after normalization no character is Unicode whitespace
without being ASCII whitespace.  Under it, re-splitting the trailing-space
join on Unicode whitespace inside `remove_words_from_sentence` recovers the
token list unchanged, and escaping commutes with the final join. -/
theorem tokenize_eq_spec (sw : List (List Char)) (text : List Char)
    (h : ∀ c ∈ normChars text, rustWhitespace c = true → asciiWhitespace c = true) :
    tokenize sw text = specTokenize sw text := by
  have htprop : ∀ t ∈ (splitBy asciiWhitespace (normChars text)).filter
      (fun t => decide (1 < byteLen t)),
      t ≠ [] ∧ ∀ c ∈ t, rustWhitespace c = false := by
    intro t ht
    have ht2 : t ∈ splitBy asciiWhitespace (normChars text) :=
      List.mem_of_mem_filter ht
    obtain ⟨hne, hchars⟩ := splitBy_sound asciiWhitespace (normChars text) t ht2
    refine ⟨hne, fun c hc => ?_⟩
    obtain ⟨hnasc, hmem⟩ := hchars c hc
    cases hrc : rustWhitespace c with
    | false => rfl
    | true =>
      have hac := h c hmem hrc
      rw [hnasc] at hac
      cases hac
  unfold tokenize specTokenize remove_words_from_sentence
  rw [srcTokens_eq_filter]
  rw [splitBy_joinTrailing rustWhitespace (by decide) _ htprop]
  rw [escAll_joinSp]
  apply trimEnd_joinSp
  intro t' ht'
  rw [List.mem_map] at ht'
  obtain ⟨t, ht, rfl⟩ := ht'
  have ht2 := List.mem_of_mem_filter ht
  obtain ⟨hne, hws⟩ := htprop t ht2
  exact ⟨escAll_ne_nil t hne, escAll_not_ws t hws⟩

/-- Claim C7 counterexample.  On the input `a<NBSP>b` (U+00A0 no-break
space between two letters) the source `tokenize` and the specification's
eight ordered steps disagree: U+00A0 is not ASCII whitespace, so step (4)
keeps `a<NBSP>b` as one token which step (7) should emit as
`a\u{a0}b`; the source instead re-splits the token at U+00A0 inside
`remove_words_from_sentence` (Rust `split_whitespace` splits on Unicode
whitespace) and returns `a b`. -/
theorem c7_counterexample :
    ¬ tokenize [] ['a', Char.ofNat 160, 'b']
        = specTokenize [] ['a', Char.ofNat 160, 'b'] := by
  decide

/-- Claim C7 (amended).  For every input whose normalized characters
contain no Unicode-only whitespace (every Unicode-whitespace character is
also ASCII whitespace), `tokenize` equals the specification's eight steps
applied in order; in general the stop-word phase re-splits tokens at
Unicode whitespace first.  On the specification's concrete test vector with
an empty stop-word list the output is exactly the claimed sentence. -/
theorem c7_tokenize_steps :
    (∀ sw text,
      (∀ c ∈ normChars text, rustWhitespace c = true → asciiWhitespace c = true) →
      tokenize sw text = specTokenize sw text) ∧
    tokenize []
        (String.toList "I really like apples! But I prefer Gravitalia, sometimes... yeah?")
      = String.toList "really like apples but prefer gravitalia sometimes yeah" := by
  refine ⟨fun sw text h => tokenize_eq_spec sw text h, ?_⟩
  decide

/-- Witness for `c7_tokenize_steps` at a concrete ASCII input. -/
theorem c7_tokenize_steps_witness :
    tokenize [] (String.toList "Hello, PROOF world!")
      = specTokenize [] (String.toList "Hello, PROOF world!") :=
  c7_tokenize_steps.1 [] (String.toList "Hello, PROOF world!") (by decide)

/-! ## Claim C10 — byte-length token dropping -/

/-- Claim C10.  The drop-short-tokens filter of `tokenize` keeps a token
exactly when its UTF-8 byte length exceeds one (the general first conjunct
restates the source filter as the pure byte-length test), so a one-ASCII-
character token (`"a"`, 1 byte) is dropped while a one-character multi-byte
token (`"é"`, 2 bytes) is kept and finally emitted as its `\u{e9}`
escape. -/
theorem c10_short_token_byte_length :
    (∀ text, srcTokens text
        = (splitBy asciiWhitespace (normChars text)).filter
            (fun t => decide (1 < byteLen t))) ∧
    byteLen ['é'] = 2 ∧ byteLen ['a'] = 1 ∧
    srcTokens (String.toList "é a") = [['é']] ∧
    tokenize [] (String.toList "é a") = ['\\', 'u', '{', 'e', '9', '}'] := by
  exact ⟨srcTokens_eq_filter, by decide, by decide, by decide, by decide⟩
